import Mathlib

/-!
# A verification model of the `rustgrad` scalar autograd engine

This file embeds `src/value.rs` of the `rustgrad` repository: a scalar
reverse-mode automatic-differentiation engine.  The Rust code keeps a DAG of
`Rc<RefCell<ValueBody>>` nodes; we model the heap of nodes as an arena
(`State := List ValueBody`) in which a node is identified by its index and the
`children` field stores indices of the operand nodes.  Every public operation
appends a fresh node whose operands already exist, so in every state built
through the API each node's children have strictly smaller indices (`WF`).

`f32` arithmetic is idealized as exact rational arithmetic; `f32::powf` is
modelled by `powf`, real exponentiation restricted to integer exponents
(the only exponents the repository and its specification exercise) with a junk
value `0` on non-integer exponents, where the source would produce an
irrational number or NaN.

The two recursive walks of the Rust code (`clear_gradients` and
`compute_gradients_recursive`) are written with an explicit fuel parameter and
return `Option State`; `none` means the fuel ran out, so termination of the
source recursion is the statement that some finite fuel returns `some`.
-/

namespace Rustgrad

/-- The `Operation` enum of `value.rs`. -/
inductive Operation where
  | Addition
  | Multiplication
  | Power
  | Relu
deriving DecidableEq, Repr

/-- The `ValueBody` struct of `value.rs`: the payload of one graph node.
`children` holds arena indices of the operand nodes. -/
structure ValueBody where
  data : ℚ
  children : List Nat
  gradient : ℚ
  operation : Option Operation
deriving DecidableEq, Repr

/-- The heap of nodes: node `i` is `g[i]`. -/
abbrev State := List ValueBody

/-- `f32::powf` idealized over exact rationals: for an integer exponent it is
exact integer-power; a non-integer exponent (where the source computes an
irrational value or NaN) falls outside the exact embedding and maps to the
junk value `0`.  No claim in this development touches that case. -/
def powf (b e : ℚ) : ℚ := if e.den = 1 then b ^ e.num else 0

/-- The `data` field of node `i` (`Value::data`); `0` if `i` is not a node. -/
def dataAt (g : State) (i : Nat) : ℚ :=
  match g.get? i with
  | some nd => nd.data
  | none => 0

/-- The `gradient` field of node `i` (`Value::gradient`); `0` if `i` is not a
node. -/
def gradAt (g : State) (i : Nat) : ℚ :=
  match g.get? i with
  | some nd => nd.gradient
  | none => 0

/-- The `children` field of node `i`; `[]` if `i` is not a node. -/
def childrenAt (g : State) (i : Nat) : List Nat :=
  match g.get? i with
  | some nd => nd.children
  | none => []

/-- The `operation` field of node `i`; `none` if `i` is not a node. -/
def opAt (g : State) (i : Nat) : Option Operation :=
  match g.get? i with
  | some nd => nd.operation
  | none => none

/-- Replace the `gradient` field of node `i` by `f` applied to it. -/
def modifyGrad (g : State) (i : Nat) (f : ℚ → ℚ) : State :=
  match g.get? i with
  | some nd => g.set i { nd with gradient := f nd.gradient }
  | none => g

/-- `node.gradient = q`. -/
def setGrad (g : State) (i : Nat) (q : ℚ) : State := modifyGrad g i (fun _ => q)

/-- `node.gradient += q`. -/
def addGrad (g : State) (i : Nat) (q : ℚ) : State := modifyGrad g i (fun x => x + q)

/-- Replace the `data` field of node `i` by `f` applied to it. -/
def modifyData (g : State) (i : Nat) (f : ℚ → ℚ) : State :=
  match g.get? i with
  | some nd => g.set i { nd with data := f nd.data }
  | none => g

/-! ## Graph-building operations (`value`, `add`, `subtract`, `pow`,
`squared`, `mul`, `relu`)

Each returns the extended arena together with the index of the new node. -/

/-- `pub fn value(x: f32) -> Value`: a fresh leaf node. -/
def mkValue (g : State) (x : ℚ) : State × Nat :=
  (g ++ [⟨x, [], 0, none⟩], g.length)

/-- `Value::add`. -/
def mkAdd (g : State) (a b : Nat) : State × Nat :=
  (g ++ [⟨dataAt g a + dataAt g b, [a, b], 0, some .Addition⟩], g.length)

/-- `Value::mul`. -/
def mkMul (g : State) (a b : Nat) : State × Nat :=
  (g ++ [⟨dataAt g a * dataAt g b, [a, b], 0, some .Multiplication⟩], g.length)

/-- `Value::pow`. -/
def mkPow (g : State) (a p : Nat) : State × Nat :=
  (g ++ [⟨powf (dataAt g a) (dataAt g p), [a, p], 0, some .Power⟩], g.length)

/-- `Value::squared`: `let exponent = value(2.0); self.pow(&exponent)`. -/
def mkSquared (g : State) (a : Nat) : State × Nat :=
  let r1 := mkValue g 2
  mkPow r1.1 a r1.2

/-- `Value::subtract`: `let negative = value(-1.0); let neg_v = v.mul(&negative);
self.add(&neg_v)`. -/
def mkSub (g : State) (a b : Nat) : State × Nat :=
  let r1 := mkValue g (-1)
  let r2 := mkMul r1.1 b r1.2
  mkAdd r2.1 a r2.2

/-- `Value::relu`: `data: self.data().max(0.0)`. -/
def mkRelu (g : State) (v : Nat) : State × Nat :=
  (g ++ [⟨max (dataAt g v) 0, [v], 0, some .Relu⟩], g.length)

/-! ## Gradient propagation -/

/-- The `match self.body.borrow().operation` block of
`compute_gradients_recursive`: push this node's contribution into each
operand's `gradient`, in source order, reading the state current at each
read (in a compound assignment the right-hand side is evaluated first). -/
def applyStep (g : State) (i : Nat) : State :=
  match opAt g i with
  | some .Addition =>
      (childrenAt g i).foldl (fun s c => addGrad s c (gradAt s i)) g
  | some .Multiplication =>
      let l := (childrenAt g i).getD 0 0
      let r := (childrenAt g i).getD 1 0
      let g1 := addGrad g l (dataAt g r * gradAt g i)
      addGrad g1 r (dataAt g1 l * gradAt g1 i)
  | some .Power =>
      let b := (childrenAt g i).getD 0 0
      let e := (childrenAt g i).getD 1 0
      addGrad g b (dataAt g e * powf (dataAt g b) (dataAt g e - 1) * gradAt g i)
  | some .Relu =>
      let b := (childrenAt g i).getD 0 0
      addGrad g b (if dataAt g b > 0 then 1 * gradAt g i else 0)
  | none => g

/-- Run `f` over a worklist of node indices, threading the state;
`none` aborts.  This is the sequential `for child in children { ... }`
loop of the source. -/
def optFold (f : State → Nat → Option State) : State → List Nat → Option State
  | s, [] => some s
  | s, c :: cs =>
      match f s c with
      | some s' => optFold f s' cs
      | none => none

/-- `Value::compute_gradients_recursive`, with fuel bounding the recursion
depth: apply the node's local rule, then recurse into each child in order. -/
def cgrF : Nat → State → Nat → Option State
  | 0, _, _ => none
  | fuel + 1, g, i => optFold (fun s c => cgrF fuel s c) (applyStep g i) (childrenAt g i)

/-- `Value::clear_gradients`, with fuel: zero this node's gradient, then
recurse into each child in order. -/
def clearF : Nat → State → Nat → Option State
  | 0, _, _ => none
  | fuel + 1, g, i => optFold (fun s c => clearF fuel s c) (setGrad g i 0) (childrenAt g i)

/-- `Value::compute_gradients`: clear all reachable gradients, seed the root's
gradient to `1`, propagate. -/
def computeGradientsF (fuel : Nat) (g : State) (root : Nat) : Option State :=
  match clearF fuel g root with
  | some g1 => cgrF fuel (setGrad g1 root 1) root
  | none => none

/-- `compute_gradients` with the fuel `root + 1`, which suffices on every
well-formed graph (children have smaller indices). -/
def computeGradients (g : State) (root : Nat) : Option State :=
  computeGradientsF (root + 1) g root

/-- `Value::learn`: `self.data -= self.gradient() * learning_rate`. -/
def learn (g : State) (i : Nat) (rate : ℚ) : State :=
  modifyData g i (fun d => d - gradAt g i * rate)

/-- Well-formedness: every operand edge points to a strictly earlier node.
Every state built through the public operations satisfies this, because each
operation consumes only already-existing nodes and appends at the end. -/
def WF (g : State) : Prop := ∀ i c, c ∈ childrenAt g i → c < i

/-- Executable check for `WF`, for concrete graphs. -/
def wfCheck (g : State) : Bool :=
  (List.range g.length).all (fun i => (childrenAt g i).all (fun c => decide (c < i)))

/-- Every node's `children` list has the arity its `operation` dictates:
`2` for `Addition`, `Multiplication`, `Power`; `1` for `Relu`; none for a
leaf.  Every node built by the public operations satisfies this (the source
indexes `children[0]`/`children[1]` unconditionally, so this is exactly the
domain on which it does not panic). -/
def arityOk (g : State) : Prop := ∀ i,
  match opAt g i with
  | some .Relu => (childrenAt g i).length = 1
  | some _ => (childrenAt g i).length = 2
  | none => childrenAt g i = []

/-- Executable check for `arityOk`, for concrete graphs. -/
def arityCheck (g : State) : Bool :=
  (List.range g.length).all (fun i =>
    match opAt g i with
    | some .Relu => (childrenAt g i).length == 1
    | some _ => (childrenAt g i).length == 2
    | none => childrenAt g i == [])

/-- Forget all gradients: the "shape" of a state (sizes, values, edges,
operations).  Two states with equal `eraseGrads` differ at most in their
gradient accumulators. -/
def eraseGrads (g : State) : State := g.map (fun nd => { nd with gradient := 0 })

/-- `Reaches g i j`: node `j` is reachable from node `i` along operand
edges (reflexively). -/
inductive Reaches (g : State) : Nat → Nat → Prop
  | refl (i : Nat) : Reaches g i i
  | step {i c j : Nat} : c ∈ childrenAt g i → Reaches g c j → Reaches g i j

/-- The local derivative factor the specification attaches to the `k`-th
operand edge of node `i` (section 4.2 of the spec): `1` for `Add`; the other
operand's value for `Multiply`; `e * b^(e-1)` on the base edge and `0` on the
exponent edge for `Power`; the `0/1` subgradient for `Relu`. -/
def localFactor (g : State) (i k : Nat) : ℚ :=
  match opAt g i with
  | some .Addition => 1
  | some .Multiplication =>
      if k = 0 then dataAt g ((childrenAt g i).getD 1 0)
      else dataAt g ((childrenAt g i).getD 0 0)
  | some .Power =>
      if k = 0 then
        dataAt g ((childrenAt g i).getD 1 0) *
          powf (dataAt g ((childrenAt g i).getD 0 0))
            (dataAt g ((childrenAt g i).getD 1 0) - 1)
      else 0
  | some .Relu => if 0 < dataAt g ((childrenAt g i).getD 0 0) then 1 else 0
  | none => 0

/-- Modelled from the spec (traversal correctness requirement, section 4.2):
the sum, over every operand-edge path from node `i` down to node `j`, of the
product of the local derivative factors along the path — the value the spec
requires `j`'s final gradient to equal after `compute_gradients(i)`.  On an
acyclic graph, fuel `i + 1` is exact. -/
def pathDeriv : Nat → State → Nat → Nat → ℚ
  | 0, _, _, _ => 0
  | fuel + 1, g, i, j =>
      if i = j then 1
      else ((List.range (childrenAt g i).length).map
        (fun k => localFactor g i k *
          pathDeriv fuel g ((childrenAt g i).getD k 0) j)).sum

/-! ## Basic lemmas about accessors and field updates -/

theorem get?_eq_none_of_le {g : State} {i : Nat} (h : g.length ≤ i) :
    g.get? i = none := List.get?_eq_none.2 h

theorem childrenAt_of_le {g : State} {i : Nat} (h : g.length ≤ i) :
    childrenAt g i = [] := by
  unfold childrenAt
  rw [get?_eq_none_of_le h]

theorem opAt_of_le {g : State} {i : Nat} (h : g.length ≤ i) :
    opAt g i = none := by
  unfold opAt
  rw [get?_eq_none_of_le h]

theorem WF_of_check {g : State} (h : wfCheck g = true) : WF g := by
  intro i c hc
  rcases Nat.lt_or_ge i g.length with hi | hi
  · have h1 := List.all_eq_true.1 h i (List.mem_range.2 hi)
    have h2 := List.all_eq_true.1 h1 c hc
    exact of_decide_eq_true h2
  · rw [childrenAt_of_le hi] at hc
    exact absurd hc (List.not_mem_nil c)

theorem arityOk_of_check {g : State} (h : arityCheck g = true) : arityOk g := by
  intro i
  rcases Nat.lt_or_ge i g.length with hi | hi
  · have h1 := List.all_eq_true.1 h i (List.mem_range.2 hi)
    cases hop : opAt g i with
    | none =>
        rw [hop] at h1
        exact eq_of_beq h1
    | some op =>
        rw [hop] at h1
        cases op <;> exact eq_of_beq h1
  · rw [opAt_of_le hi]
    exact childrenAt_of_le hi

theorem modifyGrad_of_none {g : State} {i : Nat} (f : ℚ → ℚ) (h : g.get? i = none) :
    modifyGrad g i f = g := by
  unfold modifyGrad
  rw [h]

theorem length_modifyGrad (g : State) (i : Nat) (f : ℚ → ℚ) :
    (modifyGrad g i f).length = g.length := by
  unfold modifyGrad
  cases g.get? i <;> simp

theorem get?_modifyGrad_ne (g : State) (i : Nat) (f : ℚ → ℚ) {j : Nat} (h : j ≠ i) :
    (modifyGrad g i f).get? j = g.get? j := by
  unfold modifyGrad
  cases g.get? i with
  | none => rfl
  | some nd => exact List.get?_set_ne _ _ (fun hij => h hij.symm)

theorem get?_modifyGrad_self {g : State} {i : Nat} (f : ℚ → ℚ) {nd : ValueBody}
    (h : g.get? i = some nd) :
    (modifyGrad g i f).get? i = some { nd with gradient := f nd.gradient } := by
  unfold modifyGrad
  rw [h]
  exact List.get?_set_eq_of_lt _ (List.get?_eq_some.1 h).1

theorem dataAt_modifyGrad (g : State) (i : Nat) (f : ℚ → ℚ) (j : Nat) :
    dataAt (modifyGrad g i f) j = dataAt g j := by
  rcases Decidable.em (j = i) with rfl | h
  · cases hg : g.get? j with
    | none => rw [modifyGrad_of_none f hg]
    | some nd =>
        unfold dataAt
        rw [get?_modifyGrad_self f hg, hg]
  · unfold dataAt
    rw [get?_modifyGrad_ne g i f h]

theorem childrenAt_modifyGrad (g : State) (i : Nat) (f : ℚ → ℚ) (j : Nat) :
    childrenAt (modifyGrad g i f) j = childrenAt g j := by
  rcases Decidable.em (j = i) with rfl | h
  · cases hg : g.get? j with
    | none => rw [modifyGrad_of_none f hg]
    | some nd =>
        unfold childrenAt
        rw [get?_modifyGrad_self f hg, hg]
  · unfold childrenAt
    rw [get?_modifyGrad_ne g i f h]

theorem opAt_modifyGrad (g : State) (i : Nat) (f : ℚ → ℚ) (j : Nat) :
    opAt (modifyGrad g i f) j = opAt g j := by
  rcases Decidable.em (j = i) with rfl | h
  · cases hg : g.get? j with
    | none => rw [modifyGrad_of_none f hg]
    | some nd =>
        unfold opAt
        rw [get?_modifyGrad_self f hg, hg]
  · unfold opAt
    rw [get?_modifyGrad_ne g i f h]

theorem gradAt_modifyGrad_self {g : State} {i : Nat} (f : ℚ → ℚ) (h : i < g.length) :
    gradAt (modifyGrad g i f) i = f (gradAt g i) := by
  rcases List.get?_eq_get h with hg
  unfold gradAt
  rw [get?_modifyGrad_self f hg, hg]

theorem gradAt_modifyGrad_ne (g : State) (i : Nat) (f : ℚ → ℚ) {j : Nat} (h : j ≠ i) :
    gradAt (modifyGrad g i f) j = gradAt g j := by
  unfold gradAt
  rw [get?_modifyGrad_ne g i f h]

theorem length_modifyData (g : State) (i : Nat) (f : ℚ → ℚ) :
    (modifyData g i f).length = g.length := by
  unfold modifyData
  cases g.get? i <;> simp

theorem get?_modifyData_ne (g : State) (i : Nat) (f : ℚ → ℚ) {j : Nat} (h : j ≠ i) :
    (modifyData g i f).get? j = g.get? j := by
  unfold modifyData
  cases g.get? i with
  | none => rfl
  | some nd => exact List.get?_set_ne _ _ (fun hij => h hij.symm)

theorem get?_modifyData_self {g : State} {i : Nat} (f : ℚ → ℚ) {nd : ValueBody}
    (h : g.get? i = some nd) :
    (modifyData g i f).get? i = some { nd with data := f nd.data } := by
  unfold modifyData
  rw [h]
  exact List.get?_set_eq_of_lt _ (List.get?_eq_some.1 h).1

theorem dataAt_modifyData_self {g : State} {i : Nat} (f : ℚ → ℚ) (h : i < g.length) :
    dataAt (modifyData g i f) i = f (dataAt g i) := by
  rcases List.get?_eq_get h with hg
  unfold dataAt
  rw [get?_modifyData_self f hg, hg]

/-! ## Lemmas about appending a fresh node (the graph-building operations) -/

theorem dataAt_append_lt {g : State} (l : State) {i : Nat} (h : i < g.length) :
    dataAt (g ++ l) i = dataAt g i := by
  unfold dataAt
  rw [List.get?_append h]

theorem gradAt_append_lt {g : State} (l : State) {i : Nat} (h : i < g.length) :
    gradAt (g ++ l) i = gradAt g i := by
  unfold gradAt
  rw [List.get?_append h]

theorem childrenAt_append_lt {g : State} (l : State) {i : Nat} (h : i < g.length) :
    childrenAt (g ++ l) i = childrenAt g i := by
  unfold childrenAt
  rw [List.get?_append h]

theorem opAt_append_lt {g : State} (l : State) {i : Nat} (h : i < g.length) :
    opAt (g ++ l) i = opAt g i := by
  unfold opAt
  rw [List.get?_append h]

theorem get?_concat_self (g : State) (nd : ValueBody) :
    (g ++ [nd]).get? g.length = some nd := List.get?_concat_length g nd

theorem dataAt_concat_self (g : State) (nd : ValueBody) :
    dataAt (g ++ [nd]) g.length = nd.data := by
  unfold dataAt
  rw [get?_concat_self]

theorem gradAt_concat_self (g : State) (nd : ValueBody) :
    gradAt (g ++ [nd]) g.length = nd.gradient := by
  unfold gradAt
  rw [get?_concat_self]

theorem childrenAt_concat_self (g : State) (nd : ValueBody) :
    childrenAt (g ++ [nd]) g.length = nd.children := by
  unfold childrenAt
  rw [get?_concat_self]

theorem opAt_concat_self (g : State) (nd : ValueBody) :
    opAt (g ++ [nd]) g.length = nd.operation := by
  unfold opAt
  rw [get?_concat_self]

/-! ## Shape lemmas: `eraseGrads` -/

theorem length_eraseGrads (g : State) : (eraseGrads g).length = g.length := by
  unfold eraseGrads
  exact List.length_map g _

theorem get?_eraseGrads (g : State) (i : Nat) :
    (eraseGrads g).get? i = (g.get? i).map (fun nd => { nd with gradient := 0 }) := by
  unfold eraseGrads
  exact List.get?_map _ g i

/-- Equal shapes give equal lengths. -/
theorem length_congr_of_eraseGrads {g₁ g₂ : State} (h : eraseGrads g₁ = eraseGrads g₂) :
    g₁.length = g₂.length := by
  have := congrArg List.length h
  rwa [length_eraseGrads, length_eraseGrads] at this

/-- Equal shapes give equal `children` everywhere. -/
theorem childrenAt_congr_of_eraseGrads {g₁ g₂ : State}
    (h : eraseGrads g₁ = eraseGrads g₂) (i : Nat) :
    childrenAt g₁ i = childrenAt g₂ i := by
  have h2 := congrArg (fun s => s.get? i) h
  simp only [get?_eraseGrads] at h2
  unfold childrenAt
  cases h1 : g₁.get? i <;> cases hx : g₂.get? i <;>
    rw [h1, hx] at h2 <;> simp at h2 <;> try rfl
  exact h2.2.1

/-- Equal shapes give equal `data` everywhere. -/
theorem dataAt_congr_of_eraseGrads {g₁ g₂ : State}
    (h : eraseGrads g₁ = eraseGrads g₂) (i : Nat) :
    dataAt g₁ i = dataAt g₂ i := by
  have h2 := congrArg (fun s => s.get? i) h
  simp only [get?_eraseGrads] at h2
  unfold dataAt
  cases h1 : g₁.get? i <;> cases hx : g₂.get? i <;>
    rw [h1, hx] at h2 <;> simp at h2 <;> try rfl
  exact h2.1

/-- Equal shapes give equal `operation` everywhere. -/
theorem opAt_congr_of_eraseGrads {g₁ g₂ : State}
    (h : eraseGrads g₁ = eraseGrads g₂) (i : Nat) :
    opAt g₁ i = opAt g₂ i := by
  have h2 := congrArg (fun s => s.get? i) h
  simp only [get?_eraseGrads] at h2
  unfold opAt
  cases h1 : g₁.get? i <;> cases hx : g₂.get? i <;>
    rw [h1, hx] at h2 <;> simp at h2 <;> try rfl
  exact h2.2.2

theorem eraseGrads_modifyGrad (g : State) (i : Nat) (f : ℚ → ℚ) :
    eraseGrads (modifyGrad g i f) = eraseGrads g := by
  unfold modifyGrad
  cases hg : g.get? i with
  | none => rfl
  | some nd =>
      unfold eraseGrads
      rw [List.map_set]
      have hlt : i < (g.map (fun nd => { nd with gradient := (0:ℚ) })).length := by
        rw [List.length_map]
        exact (List.get?_eq_some.1 hg).1
      have : g.map (fun nd => { nd with gradient := 0 }) =
          (g.map (fun nd => { nd with gradient := 0 })).set i { nd with gradient := 0 } := by
        apply List.ext_get?
        intro j
        rcases Decidable.em (j = i) with rfl | hne
        · rw [List.get?_set_eq_of_lt _ hlt, List.get?_map, hg]
          rfl
        · rw [List.get?_set_ne _ _ (fun hh => hne hh.symm)]
      exact this.symm

/-- `arityOk` depends only on the shape. -/
theorem arityOk_congr_of_eraseGrads {g₁ g₂ : State}
    (h : eraseGrads g₁ = eraseGrads g₂) (ha : arityOk g₁) : arityOk g₂ := by
  intro i
  rw [← opAt_congr_of_eraseGrads h i, ← childrenAt_congr_of_eraseGrads h i]
  exact ha i

/-- `WF` depends only on the shape. -/
theorem WF_congr_of_eraseGrads {g₁ g₂ : State}
    (h : eraseGrads g₁ = eraseGrads g₂) (hw : WF g₁) : WF g₂ := by
  intro i c hc
  rw [← childrenAt_congr_of_eraseGrads h i] at hc
  exact hw i c hc

/-- `Reaches` depends only on the shape. -/
theorem reaches_congr_of_eraseGrads {g₁ g₂ : State}
    (h : eraseGrads g₁ = eraseGrads g₂) {i j : Nat} (hr : Reaches g₁ i j) :
    Reaches g₂ i j := by
  induction hr with
  | refl i => exact .refl i
  | step hc _ ih =>
      exact .step (by rwa [← childrenAt_congr_of_eraseGrads h]) ih

/-- Two states with the same shape and the same gradient at every index are
equal. -/
theorem state_ext {g₁ g₂ : State} (h : eraseGrads g₁ = eraseGrads g₂)
    (hg : ∀ j, gradAt g₁ j = gradAt g₂ j) : g₁ = g₂ := by
  apply List.ext_get?
  intro j
  have h2 := congrArg (fun s => s.get? j) h
  simp only [get?_eraseGrads] at h2
  have h3 := hg j
  unfold gradAt at h3
  cases h1 : g₁.get? j with
  | none =>
      cases hx : g₂.get? j with
      | none => rfl
      | some v₂ => rw [h1, hx] at h2; simp at h2
  | some v₁ =>
      cases hx : g₂.get? j with
      | none => rw [h1, hx] at h2; simp at h2
      | some v₂ =>
          rw [h1, hx] at h2 h3
          cases v₁
          cases v₂
          simp_all

/-! ## Generic lemmas about the sequential worklist `optFold` -/

/-- An invariant preserved by every step of the loop holds at the end. -/
theorem optFold_invariant {f : State → Nat → Option State} {P : State → Prop}
    {l : List Nat} {s s' : State}
    (hstep : ∀ c ∈ l, ∀ x x', P x → f x c = some x' → P x')
    (hs : P s) (h : optFold f s l = some s') : P s' := by
  induction l generalizing s with
  | nil =>
      unfold optFold at h
      cases h
      exact hs
  | cons c cs ih =>
      unfold optFold at h
      cases hf : f s c with
      | none => rw [hf] at h; cases h
      | some t =>
          rw [hf] at h
          exact ih (fun d hd => hstep d (List.mem_cons_of_mem c hd)) (hstep c (List.mem_cons_self c cs) s t hs hf) h

/-- If every step succeeds out of every invariant state, the loop succeeds. -/
theorem optFold_total {f : State → Nat → Option State} {P : State → Prop}
    {l : List Nat} {s : State}
    (hstep : ∀ c ∈ l, ∀ x, P x → ∃ x', f x c = some x' ∧ P x')
    (hs : P s) : ∃ s', optFold f s l = some s' ∧ P s' := by
  induction l generalizing s with
  | nil => exact ⟨s, rfl, hs⟩
  | cons c cs ih =>
      rcases hstep c (List.mem_cons_self c cs) s hs with ⟨t, hf, ht⟩
      rcases ih (fun d hd => hstep d (List.mem_cons_of_mem c hd)) ht with ⟨s', hfold, hs'⟩
      refine ⟨s', ?_, hs'⟩
      unfold optFold
      rw [hf]
      exact hfold

/-- Run two loops over the same worklist in lock-step, maintaining a relation. -/
theorem optFold_paired {f₁ f₂ : State → Nat → Option State} {R : State → State → Prop}
    {l : List Nat} {s₁ s₂ r₁ : State}
    (hstep : ∀ c ∈ l, ∀ x y x', R x y → f₁ x c = some x' →
      ∃ y', f₂ y c = some y' ∧ R x' y')
    (hR : R s₁ s₂) (h : optFold f₁ s₁ l = some r₁) :
    ∃ r₂, optFold f₂ s₂ l = some r₂ ∧ R r₁ r₂ := by
  induction l generalizing s₁ s₂ with
  | nil =>
      unfold optFold at h
      cases h
      exact ⟨s₂, rfl, hR⟩
  | cons c cs ih =>
      unfold optFold at h ⊢
      cases hf : f₁ s₁ c with
      | none => rw [hf] at h; cases h
      | some t₁ =>
          rw [hf] at h
          rcases hstep c (List.mem_cons_self c cs) s₁ s₂ t₁ hR hf with ⟨t₂, hf₂, ht⟩
          rw [hf₂]
          exact ih (fun d hd => hstep d (List.mem_cons_of_mem c hd)) ht h

/-- Split a successful loop at an occurrence of `a` in the worklist. -/
theorem optFold_elem {f : State → Nat → Option State} {l : List Nat} {a : Nat}
    {s s' : State} (ha : a ∈ l) (h : optFold f s l = some s') :
    ∃ l₁ l₂ t t', l = l₁ ++ a :: l₂ ∧ optFold f s l₁ = some t ∧
      f t a = some t' ∧ optFold f t' l₂ = some s' := by
  induction l generalizing s with
  | nil => exact absurd ha (List.not_mem_nil a)
  | cons c cs ih =>
      unfold optFold at h
      cases hf : f s c with
      | none => rw [hf] at h; cases h
      | some t =>
          rw [hf] at h
          rcases Decidable.em (a = c) with rfl | hne
          · exact ⟨[], cs, s, t, rfl, rfl, hf, h⟩
          · have ha' : a ∈ cs := by
              cases List.mem_cons.1 ha with
              | inl h1 => exact absurd h1 hne
              | inr h2 => exact h2
            rcases ih ha' h with ⟨l₁, l₂, u, u', heq, h1, h2, h3⟩
            refine ⟨c :: l₁, l₂, u, u', by rw [heq, List.cons_append], ?_, h2, h3⟩
            unfold optFold
            rw [hf]
            exact h1

/-! ## The propagation and reset walks only write gradient fields -/

theorem list_eq_pair {l : List Nat} (h : l.length = 2) : ∃ a b, l = [a, b] := by
  match l, h with
  | [a, b], _ => exact ⟨a, b, rfl⟩

theorem list_eq_single {l : List Nat} (h : l.length = 1) : ∃ a, l = [a] := by
  match l, h with
  | [a], _ => exact ⟨a, rfl⟩

theorem eraseGrads_foldl_addGrad (i : Nat) :
    ∀ (l : List Nat) (g : State),
      eraseGrads (l.foldl (fun s c => addGrad s c (gradAt s i)) g) = eraseGrads g := by
  intro l
  induction l with
  | nil => intro g; rfl
  | cons c cs ih =>
      intro g
      rw [List.foldl_cons, ih, addGrad, eraseGrads_modifyGrad]

theorem getD_pair_zero (a b : Nat) : ([a, b] : List Nat).getD 0 0 = a := rfl

theorem getD_pair_one (a b : Nat) : ([a, b] : List Nat).getD 1 0 = b := rfl

theorem getD_single_zero (a : Nat) : ([a] : List Nat).getD 0 0 = a := rfl

/-- The local-rule block writes only gradient fields. -/
theorem eraseGrads_applyStep (g : State) (i : Nat) :
    eraseGrads (applyStep g i) = eraseGrads g := by
  cases hop : opAt g i with
  | none => simp only [applyStep, hop]
  | some op =>
      cases op with
      | Addition =>
          simp only [applyStep, hop]
          exact eraseGrads_foldl_addGrad i _ g
      | Multiplication =>
          simp only [applyStep, hop]
          rw [addGrad, addGrad, eraseGrads_modifyGrad, eraseGrads_modifyGrad]
      | Power =>
          simp only [applyStep, hop]
          rw [addGrad, eraseGrads_modifyGrad]
      | Relu =>
          simp only [applyStep, hop]
          rw [addGrad, eraseGrads_modifyGrad]

/-- `clear_gradients` writes only gradient fields. -/
theorem clearF_eraseGrads : ∀ {fuel : Nat} {g gc : State} {i : Nat},
    clearF fuel g i = some gc → eraseGrads gc = eraseGrads g := by
  intro fuel
  induction fuel with
  | zero => intro g gc i h; cases h
  | succ fuel ih =>
      intro g gc i h
      unfold clearF at h
      exact optFold_invariant (P := fun s => eraseGrads s = eraseGrads g)
        (fun c _ x x' hx hf => by
          show eraseGrads x' = eraseGrads g
          rw [ih hf]; exact hx)
        (by show eraseGrads (setGrad g i 0) = eraseGrads g
            rw [setGrad, eraseGrads_modifyGrad]) h

/-- `compute_gradients_recursive` writes only gradient fields. -/
theorem cgrF_eraseGrads : ∀ {fuel : Nat} {g gc : State} {i : Nat},
    cgrF fuel g i = some gc → eraseGrads gc = eraseGrads g := by
  intro fuel
  induction fuel with
  | zero => intro g gc i h; cases h
  | succ fuel ih =>
      intro g gc i h
      unfold cgrF at h
      exact optFold_invariant (P := fun s => eraseGrads s = eraseGrads g)
        (fun c _ x x' hx hf => by
          show eraseGrads x' = eraseGrads g
          rw [ih hf]; exact hx)
        (eraseGrads_applyStep g i) h

/-- `compute_gradients` writes only gradient fields: `value`, `children` and
`operation` of every node are unchanged. -/
theorem computeGradientsF_eraseGrads {fuel : Nat} {g g' : State} {root : Nat}
    (h : computeGradientsF fuel g root = some g') : eraseGrads g' = eraseGrads g := by
  unfold computeGradientsF at h
  cases hc : clearF fuel g root with
  | none => rw [hc] at h; cases h
  | some g1 =>
      rw [hc] at h
      rw [cgrF_eraseGrads h, setGrad, eraseGrads_modifyGrad, clearF_eraseGrads hc]

/-! ## Locality: the walks only touch nodes reachable from the root -/

theorem get?_foldl_addGrad_not_mem (i : Nat) :
    ∀ (l : List Nat) (g : State) {j : Nat}, j ∉ l →
      (l.foldl (fun s c => addGrad s c (gradAt s i)) g).get? j = g.get? j := by
  intro l
  induction l with
  | nil => intro g j _; rfl
  | cons c cs ih =>
      intro g j hj
      have hjc : j ≠ c := by
        rintro rfl
        exact hj (List.mem_cons_self j cs)
      rw [List.foldl_cons, ih _ (fun hm => hj (List.mem_cons_of_mem c hm)),
        addGrad, get?_modifyGrad_ne _ _ _ hjc]

/-- On an arity-correct state, the local rule of node `i` writes only to
operands of `i`. -/
theorem get?_applyStep_not_child {g : State} (ha : arityOk g) {i j : Nat}
    (hj : j ∉ childrenAt g i) : (applyStep g i).get? j = g.get? j := by
  have hai := ha i
  cases hop : opAt g i with
  | none => simp only [applyStep, hop]
  | some op =>
      rw [hop] at hai
      cases op with
      | Addition =>
          simp only [applyStep, hop]
          exact get?_foldl_addGrad_not_mem i _ g hj
      | Multiplication =>
          rcases list_eq_pair hai with ⟨a, b, hab⟩
          rw [hab] at hj
          have hja : j ≠ a := by rintro rfl; exact hj (by simp)
          have hjb : j ≠ b := by rintro rfl; exact hj (by simp)
          simp only [applyStep, hop, hab, getD_pair_zero, getD_pair_one]
          rw [addGrad, addGrad, get?_modifyGrad_ne _ _ _ hjb, get?_modifyGrad_ne _ _ _ hja]
      | Power =>
          rcases list_eq_pair hai with ⟨a, b, hab⟩
          rw [hab] at hj
          have hja : j ≠ a := by rintro rfl; exact hj (by simp)
          simp only [applyStep, hop, hab, getD_pair_zero, getD_pair_one]
          rw [addGrad, get?_modifyGrad_ne _ _ _ hja]
      | Relu =>
          rcases list_eq_single hai with ⟨a, hao⟩
          rw [hao] at hj
          have hja : j ≠ a := by rintro rfl; exact hj (by simp)
          simp only [applyStep, hop, hao, getD_single_zero]
          rw [addGrad, get?_modifyGrad_ne _ _ _ hja]

/-- `clear_gradients` from `i` leaves every node not reachable from `i`
untouched. -/
theorem clearF_not_reached : ∀ {fuel : Nat} {g gc : State} {i : Nat},
    clearF fuel g i = some gc → ∀ {j : Nat}, ¬ Reaches g i j → gc.get? j = g.get? j := by
  intro fuel
  induction fuel with
  | zero => intro g gc i h; cases h
  | succ fuel ih =>
      intro g gc i h j hj
      unfold clearF at h
      have hji : j ≠ i := fun he => hj (he ▸ Reaches.refl j)
      have h0 : (setGrad g i 0).get? j = g.get? j := get?_modifyGrad_ne _ _ _ hji
      refine (optFold_invariant
        (P := fun s => s.get? j = g.get? j ∧ eraseGrads s = eraseGrads g)
        (fun c hc x x' hx hf => ?_) ⟨h0, by rw [setGrad, eraseGrads_modifyGrad]⟩ h).1
      have hcj : ¬ Reaches x c j := fun hr =>
        hj (Reaches.step hc (reaches_congr_of_eraseGrads hx.2 hr))
      exact ⟨(ih hf hcj).trans hx.1, by rw [clearF_eraseGrads hf]; exact hx.2⟩

/-- Propagation from `i` leaves every node not reachable from `i` untouched. -/
theorem cgrF_not_reached : ∀ {fuel : Nat} {g gc : State} {i : Nat}, arityOk g →
    cgrF fuel g i = some gc → ∀ {j : Nat}, ¬ Reaches g i j → gc.get? j = g.get? j := by
  intro fuel
  induction fuel with
  | zero => intro g gc i _ h; cases h
  | succ fuel ih =>
      intro g gc i ha h j hj
      unfold cgrF at h
      have hjc : j ∉ childrenAt g i := fun hm => hj (Reaches.step hm (Reaches.refl j))
      have h0 : (applyStep g i).get? j = g.get? j := get?_applyStep_not_child ha hjc
      refine (optFold_invariant
        (P := fun s => s.get? j = g.get? j ∧ eraseGrads s = eraseGrads g)
        (fun c hc x x' hx hf => ?_) ⟨h0, eraseGrads_applyStep g i⟩ h).1
      have hcj : ¬ Reaches x c j := fun hr =>
        hj (Reaches.step hc (reaches_congr_of_eraseGrads hx.2 hr))
      have hax : arityOk x := arityOk_congr_of_eraseGrads hx.2.symm ha
      exact ⟨(ih hax hf hcj).trans hx.1, by rw [cgrF_eraseGrads hf]; exact hx.2⟩

/-! ## The reset walk zeroes exactly the reachable gradients -/

theorem gradAt_setGrad_self_zero (g : State) (i : Nat) : gradAt (setGrad g i 0) i = 0 := by
  rcases Nat.lt_or_ge i g.length with h | h
  · rw [setGrad, gradAt_modifyGrad_self _ h]
  · rw [setGrad, modifyGrad_of_none _ (get?_eq_none_of_le h)]
    unfold gradAt
    rw [get?_eq_none_of_le h]

/-- Every gradient write of `clear_gradients` writes `0`, so a gradient that
is already `0` stays `0`. -/
theorem clearF_grad_zero_preserved : ∀ {fuel : Nat} {g gc : State} {i : Nat},
    clearF fuel g i = some gc → ∀ {j : Nat}, gradAt g j = 0 → gradAt gc j = 0 := by
  intro fuel
  induction fuel with
  | zero => intro g gc i h; cases h
  | succ fuel ih =>
      intro g gc i h j hj
      unfold clearF at h
      have h0 : gradAt (setGrad g i 0) j = 0 := by
        rcases Decidable.em (j = i) with rfl | hne
        · exact gradAt_setGrad_self_zero g j
        · rw [setGrad, gradAt_modifyGrad_ne _ _ _ hne]; exact hj
      exact optFold_invariant (P := fun s => gradAt s j = 0)
        (fun c _ x x' hx hf => ih hf hx) h0 h

/-- `clear_gradients` zeroes the gradient of every node reachable from the
root it is called on (shared nodes are simply zeroed again). -/
theorem clearF_reached_zero : ∀ {fuel : Nat} {g gc : State} {i : Nat},
    clearF fuel g i = some gc → ∀ {j : Nat}, Reaches g i j → gradAt gc j = 0 := by
  intro fuel
  induction fuel with
  | zero => intro g gc i h; cases h
  | succ fuel ih =>
      intro g gc i h j hj
      unfold clearF at h
      cases hj with
      | refl =>
          exact optFold_invariant (P := fun s => gradAt s i = 0)
            (fun c _ x x' hx hf => clearF_grad_zero_preserved hf hx)
            (gradAt_setGrad_self_zero g i) h
      | step hc hr =>
          rename_i c
          rcases optFold_elem hc h with ⟨l₁, l₂, t, t', _, h1, h2, h3⟩
          have hshape : eraseGrads t = eraseGrads g := by
            have := optFold_invariant (P := fun s => eraseGrads s = eraseGrads g)
              (fun d _ x x' hx hf => by
                show eraseGrads x' = eraseGrads g
                rw [clearF_eraseGrads hf]; exact hx)
              (by show eraseGrads (setGrad g i 0) = eraseGrads g
                  rw [setGrad, eraseGrads_modifyGrad]) h1
            exact this
          have hrt : Reaches t c j := reaches_congr_of_eraseGrads hshape.symm hr
          have hz : gradAt t' j = 0 := ih h2 hrt
          exact optFold_invariant (P := fun s => gradAt s j = 0)
            (fun d _ x x' hx hf => clearF_grad_zero_preserved hf hx) hz h3

/-- Success of `clear_gradients` and the shape of its result depend only on
the shape of the input. -/
theorem clearF_congr_shape : ∀ {fuel : Nat} {g₁ g₂ r₁ : State} {i : Nat},
    eraseGrads g₁ = eraseGrads g₂ → clearF fuel g₁ i = some r₁ →
    ∃ r₂, clearF fuel g₂ i = some r₂ := by
  intro fuel
  induction fuel with
  | zero => intro g₁ g₂ r₁ i _ h; cases h
  | succ fuel ih =>
      intro g₁ g₂ r₁ i hsh h
      unfold clearF at h ⊢
      rw [← childrenAt_congr_of_eraseGrads hsh i]
      have hstart : eraseGrads (setGrad g₁ i 0) = eraseGrads (setGrad g₂ i 0) := by
        rw [setGrad, setGrad, eraseGrads_modifyGrad, eraseGrads_modifyGrad]
        exact hsh
      rcases optFold_paired (R := fun x y => eraseGrads x = eraseGrads y)
        (fun c _ x y x' hxy hf => by
          rcases ih hxy hf with ⟨y', hy⟩
          exact ⟨y', hy, by
            show eraseGrads x' = eraseGrads y'
            rw [clearF_eraseGrads hf, clearF_eraseGrads hy]; exact hxy⟩)
        hstart h with ⟨r₂, hr₂, _⟩
      exact ⟨r₂, hr₂⟩

/-! ## Termination: on well-formed graphs the walks run out of graph, not
fuel.  Fuel `i + 1` suffices to process node `i`, because operand edges point
to strictly smaller indices. -/

theorem clearF_total : ∀ (i : Nat), ∀ {g : State} (fuel : Nat), WF g → i < fuel →
    ∃ gc, clearF fuel g i = some gc := by
  intro i
  induction i using Nat.strong_induction_on with
  | _ i ih =>
      intro g fuel hw hfuel
      cases fuel with
      | zero => omega
      | succ f =>
          unfold clearF
          have hstart : WF (setGrad g i 0) :=
            WF_congr_of_eraseGrads (by rw [setGrad, eraseGrads_modifyGrad]) hw
          rcases optFold_total (P := fun s => WF s)
            (fun c hc x hx => by
              have hci : c < i := hw i c hc
              rcases ih c hci f hx (by omega) with ⟨x', hx'⟩
              exact ⟨x', hx', WF_congr_of_eraseGrads (clearF_eraseGrads hx').symm hx⟩)
            hstart with ⟨gc, hgc, _⟩
          exact ⟨gc, hgc⟩

theorem cgrF_total : ∀ (i : Nat), ∀ {g : State} (fuel : Nat), WF g → i < fuel →
    ∃ gp, cgrF fuel g i = some gp := by
  intro i
  induction i using Nat.strong_induction_on with
  | _ i ih =>
      intro g fuel hw hfuel
      cases fuel with
      | zero => omega
      | succ f =>
          unfold cgrF
          have hstart : WF (applyStep g i) :=
            WF_congr_of_eraseGrads (eraseGrads_applyStep g i).symm hw
          rcases optFold_total (P := fun s => WF s)
            (fun c hc x hx => by
              have hci : c < i := hw i c hc
              rcases ih c hci f hx (by omega) with ⟨x', hx'⟩
              exact ⟨x', hx', WF_congr_of_eraseGrads (cgrF_eraseGrads hx').symm hx⟩)
            hstart with ⟨gp, hgp, _⟩
          exact ⟨gp, hgp⟩

theorem computeGradientsF_total {g : State} {root fuel : Nat} (hw : WF g)
    (hfuel : root < fuel) : ∃ g', computeGradientsF fuel g root = some g' := by
  rcases clearF_total root fuel hw hfuel with ⟨gc, hgc⟩
  have hwc : WF (setGrad gc root 1) := by
    refine WF_congr_of_eraseGrads ?_ hw
    rw [setGrad, eraseGrads_modifyGrad, clearF_eraseGrads hgc]
  rcases cgrF_total root fuel hwc hfuel with ⟨g', hg'⟩
  refine ⟨g', ?_⟩
  unfold computeGradientsF
  rw [hgc]
  exact hg'

/-! ## The public operations preserve well-formedness -/

theorem length_append_one (g : State) (nd : ValueBody) :
    (g ++ [nd]).length = g.length + 1 := by
  rw [List.length_append]
  rfl

theorem WF_append {g : State} {nd : ValueBody} (hw : WF g)
    (hc : ∀ c ∈ nd.children, c < g.length) : WF (g ++ [nd]) := by
  intro i c hcc
  rcases Nat.lt_trichotomy i g.length with hi | hi | hi
  · rw [childrenAt_append_lt _ hi] at hcc
    exact hw i c hcc
  · subst hi
    rw [childrenAt_concat_self] at hcc
    exact hc c hcc
  · rw [childrenAt_of_le (by rw [length_append_one]; omega)] at hcc
    exact absurd hcc (List.not_mem_nil c)

theorem WF_mkValue {g : State} (hw : WF g) (x : ℚ) : WF (mkValue g x).1 :=
  WF_append hw (by intro c hc; exact absurd hc (List.not_mem_nil c))

theorem WF_mkAdd {g : State} {a b : Nat} (hw : WF g) (ha : a < g.length)
    (hb : b < g.length) : WF (mkAdd g a b).1 := by
  refine WF_append hw ?_
  intro c hc
  rcases List.mem_pair.1 hc with rfl | rfl
  · exact ha
  · exact hb

theorem WF_mkMul {g : State} {a b : Nat} (hw : WF g) (ha : a < g.length)
    (hb : b < g.length) : WF (mkMul g a b).1 := by
  refine WF_append hw ?_
  intro c hc
  rcases List.mem_pair.1 hc with rfl | rfl
  · exact ha
  · exact hb

theorem WF_mkPow {g : State} {a p : Nat} (hw : WF g) (ha : a < g.length)
    (hp : p < g.length) : WF (mkPow g a p).1 := by
  refine WF_append hw ?_
  intro c hc
  rcases List.mem_pair.1 hc with rfl | rfl
  · exact ha
  · exact hp

theorem WF_mkRelu {g : State} {v : Nat} (hw : WF g) (hv : v < g.length) :
    WF (mkRelu g v).1 := by
  refine WF_append hw ?_
  intro c hc
  rcases List.mem_singleton.1 hc with rfl
  exact hv

theorem WF_mkSquared {g : State} {a : Nat} (hw : WF g) (ha : a < g.length) :
    WF (mkSquared g a).1 := by
  unfold mkSquared
  refine WF_mkPow (WF_mkValue hw 2) ?_ ?_
  · show a < (mkValue g 2).1.length
    rw [mkValue, length_append_one]
    omega
  · show g.length < (mkValue g 2).1.length
    rw [mkValue, length_append_one]
    omega

theorem WF_mkSub {g : State} {a b : Nat} (hw : WF g) (ha : a < g.length)
    (hb : b < g.length) : WF (mkSub g a b).1 := by
  have e1 : (mkValue g (-1)).2 = g.length := rfl
  have l1 : (mkValue g (-1)).1.length = g.length + 1 := length_append_one g _
  have hw1 : WF (mkValue g (-1)).1 := WF_mkValue hw (-1)
  have hw2 : WF (mkMul (mkValue g (-1)).1 b (mkValue g (-1)).2).1 := by
    rw [e1]
    exact WF_mkMul hw1 (by omega) (by omega)
  have e2 : (mkMul (mkValue g (-1)).1 b (mkValue g (-1)).2).2 = g.length + 1 := by
    show (mkValue g (-1)).1.length = g.length + 1
    exact l1
  have l2 : (mkMul (mkValue g (-1)).1 b (mkValue g (-1)).2).1.length = g.length + 2 := by
    show ((mkValue g (-1)).1 ++ [_]).length = g.length + 2
    rw [length_append_one, l1]
  show WF (mkAdd (mkMul (mkValue g (-1)).1 b (mkValue g (-1)).2).1 a
    (mkMul (mkValue g (-1)).1 b (mkValue g (-1)).2).2).1
  rw [e2]
  exact WF_mkAdd hw2 (by omega) (by omega)

/-! ## Small-step evaluation helpers for leaf nodes -/

/-- Clearing a node with no operands just zeroes it. -/
theorem clearF_leaf {g : State} {i : Nat} (h : childrenAt g i = []) {fuel : Nat}
    (hf : 0 < fuel) : clearF fuel g i = some (setGrad g i 0) := by
  cases fuel with
  | zero => omega
  | succ f =>
      unfold clearF
      rw [h]
      rfl

/-- Propagation at a leaf node is a no-op. -/
theorem cgrF_leaf {g : State} {i : Nat} (hop : opAt g i = none)
    (h : childrenAt g i = []) {fuel : Nat} (hf : 0 < fuel) : cgrF fuel g i = some g := by
  cases fuel with
  | zero => omega
  | succ f =>
      unfold cgrF
      rw [h]
      show optFold (fun s c => cgrF f s c) (applyStep g i) [] = some g
      simp only [applyStep, hop]
      rfl

/-! # The claims

Each of the following theorems settles one claim of the specification audit;
the claim id is named in the doc comment. -/

/-- C1 (code_bug evidence): on the graph `x = value(7)`, `u = x.add(&x)`,
`r = u.add(&u)` — a node (`u`) that is reachable from the root through
multiple paths and is itself a derived node — `compute_gradients(r)` leaves
`x.gradient == 8.0`, whereas the sum of the contributions of the four
root-to-`x` paths (each contributing `1`), i.e. the true derivative
`d r / d x` of `r = 4x`, is `4.0`.  The naive multi-visit recursion
re-pushes `u`'s full accumulated gradient on each of its two visits, so it
double-counts on shared derived nodes; the spec's claim that redundant
visits "never double-count incorrectly, only redo work" fails on this
input. -/
theorem claim_C1_naive_recursion_double_counts :
    (computeGradients (mkAdd (mkAdd (mkValue [] 7).1 0 0).1 1 1).1 2).map
      (fun s => gradAt s 0) = some 8 ∧
    pathDeriv 3 (mkAdd (mkAdd (mkValue [] 7).1 0 0).1 1 1).1 2 0 = 4 ∧
    (8 : ℚ) ≠ 4 := by
  refine ⟨?_, ?_, by norm_num⟩
  · norm_num [computeGradients, computeGradientsF, clearF, cgrF, optFold, applyStep,
      mkAdd, mkValue, dataAt, gradAt, childrenAt, opAt, setGrad, addGrad, modifyGrad,
      List.get?]
  · norm_num [pathDeriv, localFactor, mkAdd, mkValue, dataAt, childrenAt, opAt,
      List.get?, List.range_succ]

/-- C2: for `x = value(7)` and `y = x.add(&x)` (the same leaf node used as
both operands), after `compute_gradients(y)` the gradient of `x` is `2.0` —
the sum of two unit contributions — and not `1.0`. -/
theorem claim_C2_shared_leaf_accumulates_two :
    (computeGradients (mkAdd (mkValue [] 7).1 0 0).1 1).map
      (fun s => gradAt s 0) = some 2 ∧
    (computeGradients (mkAdd (mkValue [] 7).1 0 0).1 1).map
      (fun s => gradAt s 0) ≠ some 1 := by
  have h : (computeGradients (mkAdd (mkValue [] 7).1 0 0).1 1).map
      (fun s => gradAt s 0) = some 2 := by
    norm_num [computeGradients, computeGradientsF, clearF, cgrF, optFold, applyStep,
      mkAdd, mkValue, dataAt, gradAt, childrenAt, opAt, setGrad, addGrad, modifyGrad,
      List.get?]
  refine ⟨h, ?_⟩
  rw [h]
  intro hc
  have : (2 : ℚ) = 1 := Option.some.inj hc
  norm_num at this

/-- C3: processing a `Power` node `i` with operands `[b, e]` adds exactly
`e.value * b.value ^ (e.value - 1) * i.gradient` to the gradient of the base
`b`, and changes no node other than `b` — in particular, whenever the
exponent operand is a different node than the base, its gradient is not
updated.  Concretely, for `squared(value(4.0))` (that is,
`power(4.0, 2.0)`): the value is `16.0`, and after `compute_gradients` the
base's gradient is `8.0` while the exponent constant's gradient stays
`0.0`. -/
theorem claim_C3_power_rule_base_only :
    (∀ g i b e, opAt g i = some .Power → childrenAt g i = [b, e] → b < g.length →
      gradAt (applyStep g i) b =
        gradAt g b + dataAt g e * powf (dataAt g b) (dataAt g e - 1) * gradAt g i ∧
      ∀ j, j ≠ b → (applyStep g i).get? j = g.get? j) ∧
    dataAt (mkSquared (mkValue [] 4).1 0).1 2 = 16 ∧
    (computeGradients (mkSquared (mkValue [] 4).1 0).1 2).map
      (fun s => gradAt s 0) = some 8 ∧
    (computeGradients (mkSquared (mkValue [] 4).1 0).1 2).map
      (fun s => gradAt s 1) = some 0 := by
  refine ⟨fun g i b e hop hch hb => ⟨?_, fun j hj => ?_⟩, ?_, ?_, ?_⟩
  · simp only [applyStep, hop, hch, getD_pair_zero, getD_pair_one]
    exact gradAt_modifyGrad_self _ hb
  · simp only [applyStep, hop, hch, getD_pair_zero, getD_pair_one]
    exact get?_modifyGrad_ne _ _ _ hj
  · norm_num [mkSquared, mkPow, mkValue, dataAt, powf, List.get?]
  · norm_num [computeGradients, computeGradientsF, clearF, cgrF, optFold, applyStep,
      mkSquared, mkPow, mkValue, dataAt, gradAt, childrenAt, opAt, setGrad, addGrad,
      modifyGrad, powf, List.get?]
  · norm_num [computeGradients, computeGradientsF, clearF, cgrF, optFold, applyStep,
      mkSquared, mkPow, mkValue, dataAt, gradAt, childrenAt, opAt, setGrad, addGrad,
      modifyGrad, powf, List.get?]

/-- C3 witness: the general part of `claim_C3_power_rule_base_only`
instantiated on the concrete `Power` node of `squared(value(4.0))`: its
hypotheses hold there, the base gradient gains
`2 * 4 ^ (2 - 1) * g`, and the exponent node (node `1 ≠ 0`) is untouched. -/
theorem claim_C3_power_rule_base_only_witness :
    gradAt (applyStep (mkSquared (mkValue [] 4).1 0).1 2) 0 =
      gradAt (mkSquared (mkValue [] 4).1 0).1 0 +
        dataAt (mkSquared (mkValue [] 4).1 0).1 1 *
          powf (dataAt (mkSquared (mkValue [] 4).1 0).1 0)
            (dataAt (mkSquared (mkValue [] 4).1 0).1 1 - 1) *
          gradAt (mkSquared (mkValue [] 4).1 0).1 2 ∧
    (applyStep (mkSquared (mkValue [] 4).1 0).1 2).get? 1 =
      (mkSquared (mkValue [] 4).1 0).1.get? 1 :=
  ⟨(claim_C3_power_rule_base_only.1 _ 2 0 1 (by decide) (by decide) (by decide)).1,
   (claim_C3_power_rule_base_only.1 _ 2 0 1 (by decide) (by decide) (by decide)).2
     1 (by decide)⟩

/-- C4: `relu(v)` constructs a node whose value is `max(0, v.value)` with
`v` as sole operand and operation `Relu`; and processing a `Relu` node `i`
with operand `[b]` adds `i.gradient` to `b`'s gradient exactly when
`b.value > 0`, and adds `0` (changes nothing) otherwise — the subgradient at
`b.value == 0` is `0`. -/
theorem claim_C4_relu_value_and_subgradient :
    (∀ g v, dataAt (mkRelu g v).1 (mkRelu g v).2 = max 0 (dataAt g v) ∧
      childrenAt (mkRelu g v).1 (mkRelu g v).2 = [v] ∧
      opAt (mkRelu g v).1 (mkRelu g v).2 = some .Relu) ∧
    (∀ g i b, opAt g i = some .Relu → childrenAt g i = [b] → b < g.length →
      gradAt (applyStep g i) b =
        gradAt g b + (if 0 < dataAt g b then gradAt g i else 0)) := by
  refine ⟨fun g v => ⟨?_, ?_, ?_⟩, fun g i b hop hch hb => ?_⟩
  · rw [mkRelu]
    show dataAt (g ++ [⟨max (dataAt g v) 0, [v], 0, some .Relu⟩]) g.length = _
    rw [dataAt_concat_self]
    exact max_comm _ 0
  · rw [mkRelu]
    show childrenAt (g ++ [⟨max (dataAt g v) 0, [v], 0, some .Relu⟩]) g.length = _
    rw [childrenAt_concat_self]
  · rw [mkRelu]
    show opAt (g ++ [⟨max (dataAt g v) 0, [v], 0, some .Relu⟩]) g.length = _
    rw [opAt_concat_self]
  · simp only [applyStep, hop, hch, getD_single_zero]
    rw [addGrad, gradAt_modifyGrad_self _ hb]
    rcases Decidable.em (0 < dataAt g b) with hpos | hpos
    · rw [if_pos hpos, if_pos hpos, one_mul]
    · rw [if_neg hpos, if_neg hpos]

/-- C4 witness: `claim_C4_relu_value_and_subgradient` instantiated on
`relu(value(5.0))` and `relu(value(-3.0))`: the constructed values are
`max(0, 5)` and `max(0, -3)`, and the propagation step on the positive case
adds the node's gradient to the operand. -/
theorem claim_C4_relu_value_and_subgradient_witness :
    (dataAt (mkRelu (mkValue [] 5).1 0).1 (mkRelu (mkValue [] 5).1 0).2 =
      max 0 (dataAt (mkValue [] 5).1 0)) ∧
    (dataAt (mkRelu (mkValue [] (-3)).1 0).1 (mkRelu (mkValue [] (-3)).1 0).2 =
      max 0 (dataAt (mkValue [] (-3)).1 0)) ∧
    gradAt (applyStep (mkRelu (mkValue [] 5).1 0).1 1) 0 =
      gradAt (mkRelu (mkValue [] 5).1 0).1 0 +
        (if 0 < dataAt (mkRelu (mkValue [] 5).1 0).1 0 then
          gradAt (mkRelu (mkValue [] 5).1 0).1 1 else 0) :=
  ⟨(claim_C4_relu_value_and_subgradient.1 _ 0).1,
   (claim_C4_relu_value_and_subgradient.1 _ 0).1,
   claim_C4_relu_value_and_subgradient.2 _ 1 0 (by decide) (by decide) (by decide)⟩

/-- C5: `subtract(a, b)` is not a primitive: it appends exactly three nodes —
the hidden `-1` constant (a leaf at index `|g|`), the hidden negated `b`
(a `Multiplication` node `[b, |g|]` with value `b.value * (-1)` at index
`|g| + 1`), and the result (an `Addition` node `[a, |g| + 1]` at index
`|g| + 2`) — its value is `a.value - b.value`, and for distinct fresh leaves
`a`, `b` the gradients after `compute_gradients(subtract(a, b))` are `1` for
`a` and `-1` for `b`: gradient flows correctly through the expansion. -/
theorem claim_C5_subtract_is_sugar :
    (∀ g a b, a < g.length → b < g.length →
      (mkSub g a b).1.length = g.length + 3 ∧
      (mkSub g a b).2 = g.length + 2 ∧
      dataAt (mkSub g a b).1 (g.length + 2) = dataAt g a - dataAt g b ∧
      opAt (mkSub g a b).1 (g.length + 2) = some .Addition ∧
      childrenAt (mkSub g a b).1 (g.length + 2) = [a, g.length + 1] ∧
      dataAt (mkSub g a b).1 g.length = -1 ∧
      opAt (mkSub g a b).1 g.length = none ∧
      childrenAt (mkSub g a b).1 g.length = [] ∧
      dataAt (mkSub g a b).1 (g.length + 1) = dataAt g b * (-1) ∧
      opAt (mkSub g a b).1 (g.length + 1) = some .Multiplication ∧
      childrenAt (mkSub g a b).1 (g.length + 1) = [b, g.length]) ∧
    (∀ va vb : ℚ,
      (computeGradients (mkSub (mkValue (mkValue [] va).1 vb).1 0 1).1
        (mkSub (mkValue (mkValue [] va).1 vb).1 0 1).2).map
          (fun s => gradAt s 0) = some 1 ∧
      (computeGradients (mkSub (mkValue (mkValue [] va).1 vb).1 0 1).1
        (mkSub (mkValue (mkValue [] va).1 vb).1 0 1).2).map
          (fun s => gradAt s 1) = some (-1)) := by
  constructor
  · intro g a b ha hb
    have e1 : (mkValue g (-1)).2 = g.length := rfl
    have l1 : (mkValue g (-1)).1.length = g.length + 1 := length_append_one _ _
    have hsub : mkSub g a b =
        mkAdd (mkMul (mkValue g (-1)).1 b g.length).1 a
          (mkMul (mkValue g (-1)).1 b g.length).2 := by
      rw [mkSub, e1]
    have e2 : (mkMul (mkValue g (-1)).1 b g.length).2 = g.length + 1 := by
      show (mkValue g (-1)).1.length = g.length + 1
      exact l1
    have l2 : (mkMul (mkValue g (-1)).1 b g.length).1.length = g.length + 2 := by
      show ((mkValue g (-1)).1 ++ [_]).length = g.length + 2
      rw [length_append_one, l1]
    have hsub2 : mkSub g a b =
        mkAdd (mkMul (mkValue g (-1)).1 b g.length).1 a (g.length + 1) := by
      rw [hsub, e2]
    have l3 : (mkSub g a b).1.length = g.length + 3 := by
      rw [hsub2]
      show ((mkMul (mkValue g (-1)).1 b g.length).1 ++ [_]).length = g.length + 3
      rw [length_append_one, l2]
    -- data of the three operand nodes, seen from the intermediate states
    have d1b : dataAt (mkValue g (-1)).1 b = dataAt g b := dataAt_append_lt _ hb
    have d1c : dataAt (mkValue g (-1)).1 g.length = -1 := by
      show dataAt (g ++ [⟨-1, [], 0, none⟩]) g.length = -1
      rw [dataAt_concat_self]
    have d2a : dataAt (mkMul (mkValue g (-1)).1 b g.length).1 a = dataAt g a := by
      show dataAt ((mkValue g (-1)).1 ++ [_]) a = dataAt g a
      rw [dataAt_append_lt _ (by omega)]
      show dataAt (g ++ [⟨-1, [], 0, none⟩]) a = dataAt g a
      rw [dataAt_append_lt _ ha]
    have d2m : dataAt (mkMul (mkValue g (-1)).1 b g.length).1 (g.length + 1) =
        dataAt g b * (-1) := by
      show dataAt ((mkValue g (-1)).1 ++
        [⟨dataAt (mkValue g (-1)).1 b * dataAt (mkValue g (-1)).1 g.length,
          [b, g.length], 0, some .Multiplication⟩]) (g.length + 1) = dataAt g b * (-1)
      rw [← l1, dataAt_concat_self]
      show dataAt (mkValue g (-1)).1 b * dataAt (mkValue g (-1)).1 g.length =
        dataAt g b * (-1)
      rw [d1b, d1c]
    refine ⟨l3, by rw [hsub2]; exact l2, ?_, ?_, ?_, ?_, ?_, ?_, ?_, ?_, ?_⟩
    · rw [hsub2]
      show dataAt ((mkMul (mkValue g (-1)).1 b g.length).1 ++
        [⟨dataAt (mkMul (mkValue g (-1)).1 b g.length).1 a +
            dataAt (mkMul (mkValue g (-1)).1 b g.length).1 (g.length + 1),
          [a, g.length + 1], 0, some .Addition⟩]) (g.length + 2) = _
      rw [← l2, dataAt_concat_self]
      show dataAt (mkMul (mkValue g (-1)).1 b g.length).1 a +
        dataAt (mkMul (mkValue g (-1)).1 b g.length).1 (g.length + 1) = _
      rw [d2a, d2m]
      ring
    · rw [hsub2]
      show opAt ((mkMul (mkValue g (-1)).1 b g.length).1 ++ [_]) (g.length + 2) = _
      rw [← l2, opAt_concat_self]
    · rw [hsub2]
      show childrenAt ((mkMul (mkValue g (-1)).1 b g.length).1 ++ [_]) (g.length + 2) = _
      rw [← l2, childrenAt_concat_self]
    · rw [hsub2]
      show dataAt ((mkMul (mkValue g (-1)).1 b g.length).1 ++ [_]) g.length = _
      rw [dataAt_append_lt _ (by omega)]
      show dataAt ((mkValue g (-1)).1 ++ [_]) g.length = _
      rw [dataAt_append_lt _ (by omega)]
      exact d1c
    · rw [hsub2]
      show opAt ((mkMul (mkValue g (-1)).1 b g.length).1 ++ [_]) g.length = _
      rw [opAt_append_lt _ (by omega)]
      show opAt ((mkValue g (-1)).1 ++ [_]) g.length = _
      rw [opAt_append_lt _ (by omega)]
      show opAt (g ++ [⟨-1, [], 0, none⟩]) g.length = _
      rw [opAt_concat_self]
    · rw [hsub2]
      show childrenAt ((mkMul (mkValue g (-1)).1 b g.length).1 ++ [_]) g.length = _
      rw [childrenAt_append_lt _ (by omega)]
      show childrenAt ((mkValue g (-1)).1 ++ [_]) g.length = _
      rw [childrenAt_append_lt _ (by omega)]
      show childrenAt (g ++ [⟨-1, [], 0, none⟩]) g.length = _
      rw [childrenAt_concat_self]
    · rw [hsub2]
      show dataAt ((mkMul (mkValue g (-1)).1 b g.length).1 ++ [_]) (g.length + 1) = _
      rw [dataAt_append_lt _ (by omega)]
      exact d2m
    · rw [hsub2]
      show opAt ((mkMul (mkValue g (-1)).1 b g.length).1 ++ [_]) (g.length + 1) = _
      rw [opAt_append_lt _ (by omega)]
      show opAt ((mkValue g (-1)).1 ++ [_]) (g.length + 1) = _
      rw [← l1, opAt_concat_self]
    · rw [hsub2]
      show childrenAt ((mkMul (mkValue g (-1)).1 b g.length).1 ++ [_]) (g.length + 1) = _
      rw [childrenAt_append_lt _ (by omega)]
      show childrenAt ((mkValue g (-1)).1 ++ [_]) (g.length + 1) = _
      rw [← l1, childrenAt_concat_self]
  · intro va vb
    constructor
    · norm_num [computeGradients, computeGradientsF, clearF, cgrF, optFold, applyStep,
        mkSub, mkMul, mkAdd, mkValue, dataAt, gradAt, childrenAt, opAt, setGrad,
        addGrad, modifyGrad, List.get?]
    · norm_num [computeGradients, computeGradientsF, clearF, cgrF, optFold, applyStep,
        mkSub, mkMul, mkAdd, mkValue, dataAt, gradAt, childrenAt, opAt, setGrad,
        addGrad, modifyGrad, List.get?]

/-- C5 witness: `claim_C5_subtract_is_sugar` instantiated on two fresh
leaves with values `10` and `3`: the subtraction node's value is `10 - 3`
and its expansion has the claimed three-node shape. -/
theorem claim_C5_subtract_is_sugar_witness :
    (mkSub (mkValue (mkValue [] 10).1 3).1 0 1).1.length = 5 ∧
    dataAt (mkSub (mkValue (mkValue [] 10).1 3).1 0 1).1 4 =
      dataAt (mkValue (mkValue [] 10).1 3).1 0 -
        dataAt (mkValue (mkValue [] 10).1 3).1 1 ∧
    (computeGradients (mkSub (mkValue (mkValue [] 10).1 3).1 0 1).1
      (mkSub (mkValue (mkValue [] 10).1 3).1 0 1).2).map
        (fun s => gradAt s 0) = some 1 :=
  ⟨(claim_C5_subtract_is_sugar.1 _ 0 1 (by decide) (by decide)).1,
   (claim_C5_subtract_is_sugar.1 _ 0 1 (by decide) (by decide)).2.2.1,
   (claim_C5_subtract_is_sugar.2 10 3).1⟩

/-- C6: `learn` (the Parameter Updater) replaces a node's value `d` by
exactly `d - g * rate`, where `g` is its current gradient; every public
operation constructs its node with gradient `0`, so calling `learn` on a
freshly built node — i.e. before any `compute_gradients` call — leaves its
value unchanged.  (In the source `learn` returns `()`; here it returns the
updated state.) -/
theorem claim_C6_learn_update :
    (∀ g i rate, i < g.length →
      dataAt (learn g i rate) i = dataAt g i - gradAt g i * rate) ∧
    (∀ g x, gradAt (mkValue g x).1 (mkValue g x).2 = 0) ∧
    (∀ g a b, gradAt (mkAdd g a b).1 (mkAdd g a b).2 = 0) ∧
    (∀ g a b, gradAt (mkMul g a b).1 (mkMul g a b).2 = 0) ∧
    (∀ g a p, gradAt (mkPow g a p).1 (mkPow g a p).2 = 0) ∧
    (∀ g v, gradAt (mkRelu g v).1 (mkRelu g v).2 = 0) ∧
    (∀ g x rate,
      dataAt (learn (mkValue g x).1 (mkValue g x).2 rate) (mkValue g x).2 = x) := by
  refine ⟨fun g i rate hi => ?_, fun g x => ?_, fun g a b => ?_, fun g a b => ?_,
    fun g a p => ?_, fun g v => ?_, fun g x rate => ?_⟩
  · exact dataAt_modifyData_self _ hi
  · show gradAt (g ++ [⟨x, [], 0, none⟩]) g.length = 0
    rw [gradAt_concat_self]
  · show gradAt (g ++ [_]) g.length = 0
    rw [gradAt_concat_self]
  · show gradAt (g ++ [_]) g.length = 0
    rw [gradAt_concat_self]
  · show gradAt (g ++ [_]) g.length = 0
    rw [gradAt_concat_self]
  · show gradAt (g ++ [_]) g.length = 0
    rw [gradAt_concat_self]
  · have hlen : (mkValue g x).2 < (mkValue g x).1.length := by
      show g.length < (mkValue g x).1.length
      rw [mkValue, length_append_one]
      omega
    rw [learn, dataAt_modifyData_self _ hlen]
    have hd : dataAt (mkValue g x).1 (mkValue g x).2 = x := by
      show dataAt (g ++ [⟨x, [], 0, none⟩]) g.length = x
      rw [dataAt_concat_self]
    have hg : gradAt (mkValue g x).1 (mkValue g x).2 = 0 := by
      show gradAt (g ++ [⟨x, [], 0, none⟩]) g.length = 0
      rw [gradAt_concat_self]
    rw [hd, hg]
    ring

/-- C6 witness: `claim_C6_learn_update` on a one-node state with value `5`
and gradient `3` at learning rate `2`, and on a fresh `value(7.0)` leaf
(gradient defaulted to `0`) at learning rate `2`. -/
theorem claim_C6_learn_update_witness :
    0 < ([⟨5, [], 3, none⟩] : State).length ∧
    dataAt (learn [⟨5, [], 3, none⟩] 0 2) 0 =
      dataAt ([⟨5, [], 3, none⟩] : State) 0 -
        gradAt ([⟨5, [], 3, none⟩] : State) 0 * 2 ∧
    dataAt (learn (mkValue [] 7).1 (mkValue [] 7).2 2) (mkValue [] 7).2 = 7 :=
  ⟨by decide, claim_C6_learn_update.1 _ 0 2 (by decide),
   claim_C6_learn_update.2.2.2.2.2.2 [] 7 2⟩

/-- C8: a derived node's value is frozen at construction: on a well-formed
state, mutating an operand `p` of node `n` through `learn` leaves node `n`
(in particular its `value`) unchanged — the graph never recomputes stale
derived values. -/
theorem claim_C8_frozen_derived_values :
    ∀ g n p rate, WF g → p ∈ childrenAt g n →
      (learn g p rate).get? n = g.get? n ∧
      dataAt (learn g p rate) n = dataAt g n := by
  intro g n p rate hw hp
  have hpn : p < n := hw n p hp
  have hne : n ≠ p := by omega
  have h1 : (learn g p rate).get? n = g.get? n := get?_modifyData_ne _ _ _ hne
  refine ⟨h1, ?_⟩
  unfold dataAt
  rw [h1]

/-- C8 witness: `claim_C8_frozen_derived_values` on a two-node state where
node `1` is a `Relu` of leaf `0`: learning on the leaf leaves the derived
node's value unchanged. -/
theorem claim_C8_frozen_derived_values_witness :
    WF ([⟨1, [], 0, none⟩, ⟨1, [0], 0, some .Relu⟩] : State) ∧
    0 ∈ childrenAt ([⟨1, [], 0, none⟩, ⟨1, [0], 0, some .Relu⟩] : State) 1 ∧
    dataAt (learn [⟨1, [], 0, none⟩, ⟨1, [0], 0, some .Relu⟩] 0 3) 1 =
      dataAt ([⟨1, [], 0, none⟩, ⟨1, [0], 0, some .Relu⟩] : State) 1 :=
  ⟨WF_of_check (by decide), by decide,
   (claim_C8_frozen_derived_values _ 1 0 3 (WF_of_check (by decide)) (by decide)).2⟩

/-- Step a `clear_gradients` worklist over its first entry. -/
theorem clearF_fold_cons {fuel : Nat} {s t : State} {c : Nat} {cs : List Nat}
    (h : clearF fuel s c = some t) :
    optFold (fun s c => clearF fuel s c) s (c :: cs) =
      optFold (fun s c => clearF fuel s c) t cs := by
  cases cs with
  | nil =>
      unfold optFold
      rw [h]
      rfl
  | cons d ds =>
      unfold optFold
      rw [h]
      rfl

/-- Step a propagation worklist over its first entry. -/
theorem cgrF_fold_cons {fuel : Nat} {s t : State} {c : Nat} {cs : List Nat}
    (h : cgrF fuel s c = some t) :
    optFold (fun s c => cgrF fuel s c) s (c :: cs) =
      optFold (fun s c => cgrF fuel s c) t cs := by
  cases cs with
  | nil =>
      unfold optFold
      rw [h]
      rfl
  | cons d ds =>
      unfold optFold
      rw [h]
      rfl

/-- C9: the public operations only ever reference already-existing nodes, so
they preserve the "operands have smaller indices" invariant `WF` (the graph
stays acyclic); and on every `WF` graph both recursive walks — the
gradient-reset walk and the propagation walk — and hence `compute_gradients`
itself terminate (return `some` with the fuel `root + 1` that
`computeGradients` uses). -/
theorem claim_C9_acyclicity_and_termination :
    (∀ g x, WF g → WF (mkValue g x).1) ∧
    (∀ g a b, WF g → a < g.length → b < g.length → WF (mkAdd g a b).1) ∧
    (∀ g a b, WF g → a < g.length → b < g.length → WF (mkMul g a b).1) ∧
    (∀ g a p, WF g → a < g.length → p < g.length → WF (mkPow g a p).1) ∧
    (∀ g a, WF g → a < g.length → WF (mkSquared g a).1) ∧
    (∀ g a b, WF g → a < g.length → b < g.length → WF (mkSub g a b).1) ∧
    (∀ g v, WF g → v < g.length → WF (mkRelu g v).1) ∧
    (∀ g root, WF g →
      (∃ gc, clearF (root + 1) g root = some gc) ∧
      (∃ gp, cgrF (root + 1) g root = some gp) ∧
      (∃ g', computeGradients g root = some g')) :=
  ⟨fun _ x hw => WF_mkValue hw x,
   fun _ _ _ hw ha hb => WF_mkAdd hw ha hb,
   fun _ _ _ hw ha hb => WF_mkMul hw ha hb,
   fun _ _ _ hw ha hp => WF_mkPow hw ha hp,
   fun _ _ hw ha => WF_mkSquared hw ha,
   fun _ _ _ hw ha hb => WF_mkSub hw ha hb,
   fun _ _ hw hv => WF_mkRelu hw hv,
   fun g root hw =>
     ⟨clearF_total root (root + 1) hw (by omega),
      cgrF_total root (root + 1) hw (by omega),
      computeGradientsF_total hw (by omega)⟩⟩

/-- C9 witness: `claim_C9_acyclicity_and_termination` on the one-leaf graph
`value(5.0)`: it is well-formed and `compute_gradients` on it returns. -/
theorem claim_C9_acyclicity_and_termination_witness :
    WF ([⟨5, [], 0, none⟩] : State) ∧
    (∃ g', computeGradients [⟨5, [], 0, none⟩] 0 = some g') :=
  ⟨WF_of_check (by decide),
   (claim_C9_acyclicity_and_termination.2.2.2.2.2.2.2 [⟨5, [], 0, none⟩] 0
     (WF_of_check (by decide))).2.2⟩

/-- C7: `compute_gradients` is idempotent: on an arity-correct state (every
state built by the public operations is one), if a pass from `root` turns
state `g` into `g'`, then a second pass from `root` on `g'` — with no
intervening mutation — returns `g'` unchanged: every reachable node's
gradient is first reset to `0` and recomputed from the (unchanged) values
and edges, and unreachable nodes are never touched. -/
theorem claim_C7_compute_gradients_idempotent :
    ∀ fuel g root g', arityOk g → computeGradientsF fuel g root = some g' →
      computeGradientsF fuel g' root = some g' := by
  intro fuel g root g' ha h
  unfold computeGradientsF at h ⊢
  cases hc : clearF fuel g root with
  | none => rw [hc] at h; cases h
  | some gc =>
      rw [hc] at h
      have hsh_gc : eraseGrads gc = eraseGrads g := clearF_eraseGrads hc
      have hsh_g1 : eraseGrads (setGrad gc root 1) = eraseGrads g := by
        rw [setGrad, eraseGrads_modifyGrad]
        exact hsh_gc
      have hsh_g' : eraseGrads g' = eraseGrads g := by
        rw [cgrF_eraseGrads h]
        exact hsh_g1
      rcases clearF_congr_shape hsh_g'.symm hc with ⟨gc', hc'⟩
      rw [hc']
      have hgc : gc' = gc := by
        apply state_ext
        · rw [clearF_eraseGrads hc', hsh_g', ← hsh_gc]
        · intro j
          rcases Classical.em (Reaches g root j) with hr | hr
          · have hr' : Reaches g' root j := reaches_congr_of_eraseGrads hsh_g'.symm hr
            rw [clearF_reached_zero hc' hr', clearF_reached_zero hc hr]
          · have hr1 : ¬ Reaches g' root j := fun hx =>
              hr (reaches_congr_of_eraseGrads hsh_g' hx)
            have e1 : gc'.get? j = g'.get? j := clearF_not_reached hc' hr1
            have hjroot : j ≠ root := by
              rintro rfl
              exact hr (Reaches.refl j)
            have ha1 : arityOk (setGrad gc root 1) :=
              arityOk_congr_of_eraseGrads hsh_g1.symm ha
            have hr2 : ¬ Reaches (setGrad gc root 1) root j := fun hx =>
              hr (reaches_congr_of_eraseGrads hsh_g1 hx)
            have e2 : g'.get? j = (setGrad gc root 1).get? j := cgrF_not_reached ha1 h hr2
            have e3 : (setGrad gc root 1).get? j = gc.get? j :=
              get?_modifyGrad_ne _ _ _ hjroot
            have e4 : gc'.get? j = gc.get? j := by rw [e1, e2, e3]
            unfold gradAt
            rw [e4]
      rw [hgc]
      exact h

/-- C7 witness: `claim_C7_compute_gradients_idempotent` on a one-leaf state
with a stale gradient `3`: the first pass yields gradient `1`, and a second
pass returns the same state. -/
theorem claim_C7_compute_gradients_idempotent_witness :
    arityOk ([⟨5, [], 3, none⟩] : State) ∧
    computeGradientsF 1 [⟨5, [], 3, none⟩] 0 = some [⟨5, [], 1, none⟩] ∧
    computeGradientsF 1 [⟨5, [], 1, none⟩] 0 = some [⟨5, [], 1, none⟩] :=
  ⟨arityOk_of_check (by decide), by rfl,
   claim_C7_compute_gradients_idempotent 1 [⟨5, [], 3, none⟩] 0 [⟨5, [], 1, none⟩]
     (arityOk_of_check (by decide)) (by rfl)⟩

/-- C10: self-aliased multiplication is handled correctly: for every leaf
node `x`, after `compute_gradients` on `x.mul(&x)` the gradient of `x` is
`2 * x.value` — the `Multiplication` rule's two `+=` contributions both land
on the same node, and each reads the operand's (unmutated) `value`, not its
partially accumulated gradient. -/
theorem claim_C10_self_aliased_multiplication :
    ∀ g x, x < g.length → opAt g x = none → childrenAt g x = [] →
      (computeGradients (mkMul g x x).1 (mkMul g x x).2).map (fun s => gradAt s x) =
        some (2 * dataAt g x) := by
  intro g x hx hop hch
  have hpos : 0 < g.length := by omega
  have hxne : x ≠ g.length := by omega
  have hlne : g.length ≠ x := by omega
  have hlen1 : (mkMul g x x).1.length = g.length + 1 := length_append_one _ _
  have hchR : childrenAt (mkMul g x x).1 g.length = [x, x] := childrenAt_concat_self _ _
  have hopR : opAt (mkMul g x x).1 g.length = some .Multiplication := opAt_concat_self _ _
  have hchx : childrenAt (mkMul g x x).1 x = [] := by
    show childrenAt (g ++ [⟨dataAt g x * dataAt g x, [x, x], 0,
      some .Multiplication⟩]) x = []
    rw [childrenAt_append_lt _ hx]
    exact hch
  have hopx : opAt (mkMul g x x).1 x = none := by
    show opAt (g ++ [⟨dataAt g x * dataAt g x, [x, x], 0,
      some .Multiplication⟩]) x = none
    rw [opAt_append_lt _ hx]
    exact hop
  have hdx : dataAt (mkMul g x x).1 x = dataAt g x := by
    show dataAt (g ++ [⟨dataAt g x * dataAt g x, [x, x], 0,
      some .Multiplication⟩]) x = dataAt g x
    rw [dataAt_append_lt _ hx]
  -- the reset walk: root, then the shared leaf twice
  set S0 := setGrad (mkMul g x x).1 g.length 0 with hS0
  set S1 := setGrad S0 x 0 with hS1
  set S2 := setGrad S1 x 0 with hS2
  have hchS0 : childrenAt S0 x = [] := by
    rw [hS0, setGrad, childrenAt_modifyGrad]
    exact hchx
  have hchS1 : childrenAt S1 x = [] := by
    rw [hS1, setGrad, childrenAt_modifyGrad]
    exact hchS0
  have hclear : clearF (g.length + 1) (mkMul g x x).1 g.length = some S2 := by
    show optFold (fun s c => clearF g.length s c) S0
      (childrenAt (mkMul g x x).1 g.length) = some S2
    rw [hchR, clearF_fold_cons (clearF_leaf hchS0 hpos), ← hS1,
      clearF_fold_cons (clearF_leaf hchS1 hpos), ← hS2]
    rfl
  have hlenS2 : S2.length = g.length + 1 := by
    simp only [hS2, hS1, hS0, setGrad, length_modifyGrad]
    exact hlen1
  -- the seeded state
  set G2 := setGrad S2 g.length 1 with hG2
  have hlenG2 : G2.length = g.length + 1 := by
    simp only [hG2, setGrad, length_modifyGrad]
    exact hlenS2
  have hopG2x : opAt G2 x = none := by
    simp only [hG2, hS2, hS1, hS0, setGrad, opAt_modifyGrad]
    exact hopx
  have hchG2x : childrenAt G2 x = [] := by
    simp only [hG2, hS2, hS1, hS0, setGrad, childrenAt_modifyGrad]
    exact hchx
  have hchG2R : childrenAt G2 g.length = [x, x] := by
    simp only [hG2, hS2, hS1, hS0, setGrad, childrenAt_modifyGrad]
    exact hchR
  have hopG2R : opAt G2 g.length = some .Multiplication := by
    simp only [hG2, hS2, hS1, hS0, setGrad, opAt_modifyGrad]
    exact hopR
  have hdG2x : dataAt G2 x = dataAt g x := by
    simp only [hG2, hS2, hS1, hS0, setGrad, dataAt_modifyGrad]
    exact hdx
  have hgradG2x : gradAt G2 x = 0 := by
    rw [hG2, setGrad, gradAt_modifyGrad_ne _ _ _ hxne, hS2]
    exact gradAt_setGrad_self_zero S1 x
  have hgradG2R : gradAt G2 g.length = 1 := by
    rw [hG2, setGrad, gradAt_modifyGrad_self _ (by omega)]
  -- the propagation walk: one `Multiplication` step, then two leaf visits
  set A1 := addGrad G2 x (dataAt G2 x * gradAt G2 g.length) with hA1
  set A2 := addGrad A1 x (dataAt A1 x * gradAt A1 g.length) with hA2
  have hstep : applyStep G2 g.length = A2 := by
    simp only [hA2, hA1, applyStep, hopG2R, hchG2R, getD_pair_zero, getD_pair_one]
  have hchA2x : childrenAt A2 x = [] := by
    simp only [hA2, hA1, addGrad, childrenAt_modifyGrad]
    exact hchG2x
  have hopA2x : opAt A2 x = none := by
    simp only [hA2, hA1, addGrad, opAt_modifyGrad]
    exact hopG2x
  have hprop : cgrF (g.length + 1) G2 g.length = some A2 := by
    show optFold (fun s c => cgrF g.length s c) (applyStep G2 g.length)
      (childrenAt G2 g.length) = some A2
    rw [hchG2R, hstep, cgrF_fold_cons (cgrF_leaf hopA2x hchA2x hpos),
      cgrF_fold_cons (cgrF_leaf hopA2x hchA2x hpos)]
    rfl
  have hrun : computeGradients (mkMul g x x).1 (mkMul g x x).2 = some A2 := by
    show computeGradientsF (g.length + 1) (mkMul g x x).1 g.length = some A2
    unfold computeGradientsF
    rw [hclear]
    show cgrF (g.length + 1) (setGrad S2 g.length 1) g.length = some A2
    rw [← hG2]
    exact hprop
  rw [hrun]
  show some (gradAt A2 x) = some (2 * dataAt g x)
  refine congrArg some ?_
  have hlenA1 : A1.length = g.length + 1 := by
    simp only [hA1, addGrad, length_modifyGrad]
    exact hlenG2
  have hdA1x : dataAt A1 x = dataAt g x := by
    simp only [hA1, addGrad, dataAt_modifyGrad]
    exact hdG2x
  have hgradA1x : gradAt A1 x = gradAt G2 x + dataAt G2 x * gradAt G2 g.length := by
    rw [hA1, addGrad, gradAt_modifyGrad_self _ (by omega)]
  have hgradA1R : gradAt A1 g.length = gradAt G2 g.length := by
    rw [hA1, addGrad, gradAt_modifyGrad_ne _ _ _ hlne]
  have hfin : gradAt A2 x = gradAt A1 x + dataAt A1 x * gradAt A1 g.length := by
    rw [hA2, addGrad, gradAt_modifyGrad_self _ (by omega)]
  rw [hfin, hgradA1x, hdA1x, hgradA1R, hgradG2x, hgradG2R, hdG2x]
  ring

/-- C10 witness: `claim_C10_self_aliased_multiplication` on the one-leaf
graph `x = value(3.0)`: after `compute_gradients(x.mul(&x))` the gradient of
`x` is `2 * 3`. -/
theorem claim_C10_self_aliased_multiplication_witness :
    0 < ([⟨3, [], 0, none⟩] : State).length ∧
    (computeGradients (mkMul [⟨3, [], 0, none⟩] 0 0).1
      (mkMul [⟨3, [], 0, none⟩] 0 0).2).map (fun s => gradAt s 0) =
        some (2 * dataAt ([⟨3, [], 0, none⟩] : State) 0) :=
  ⟨by decide,
   claim_C10_self_aliased_multiplication [⟨3, [], 0, none⟩] 0 (by decide) (by decide)
     (by decide)⟩

end Rustgrad
